import Mathlib

/-!
# RECURSUM core evaluators: a shallow embedding

This file embeds the core numerical evaluators of the RECURSUM repository in
Lean 4 and proves the testable properties stated in its specification.

The embedded components are:

* `HermiteE` / `HermiteEB` — the brute-force template-recursive Hermite
  expansion coefficients `E^{nA,nB}_t`
  (`include/recursum/mcmd/hermite_e.hpp`, `struct HermiteE<nA,nB,t>`).
* `HermiteELayer` / `HermiteELayerB` — the layered evaluator computing a whole
  row of `E` values at once
  (`include/recursum/mcmd/hermite_e_layered.hpp`, `struct HermiteELayer<nA,nB>`).
* `HermiteECoeffLayer` / `HermiteECoeffLayerB` — the generated layered
  evaluator with a uniform top-index recurrence over a zero-padded buffer
  (`include/recursum/generated/hermite_coeff_layered.hpp`).
* `CoulombR` (with `CoulombRY`, `CoulombRZ`) — the brute-force Hermite-Coulomb
  auxiliary integrals `R_{tuv}^{(N)}`
  (`include/recursum/mcmd/coulomb_aux.hpp`, `struct CoulombR<t,u,v,N>`).
* `CoulombRShell` / `CoulombShellStep` / `CoulombRLayer` — the layered
  Coulomb-R evaluator sweeping the auxiliary order downward
  (`include/recursum/mcmd/coulomb_r_layered.hpp`, `struct CoulombRLayer<L>`).
* `tetrahedral`, `triangular`, `r_index` — the indexing scheme
  (`include/recursum/mcmd/coulomb_r_layered.hpp`).
* `HermiteDerivPA`, `HermiteDerivPB`, `HermiteDerivA`, `HermiteDerivB` — the
  gradient extension (`include/recursum/mcmd/hermite_grad.hpp`).

Modelling conventions:

* The C++ code computes on `Vec8d` (8 independent double lanes); every lane is
  an independent scalar computation, and the specification's equality claims
  are stated "under exact real arithmetic" (1e-12 tolerances are floating-point
  slack).  We therefore model one lane over `ℚ`, the computable exact field.
  `Vec8d(0.5) / p` is written `(1/2 : ℚ) / p`.
* C++ template dispatch on integer parameters becomes pattern matching.  A
  template specialization chain that recurses on a second parameter when the
  first is zero (e.g. `HermiteELayer<0,nB>`) becomes a separate Lean function
  (suffix `B` below), so that every function is structurally recursive.
* Fixed-size zero-initialized arrays (`std::array<Vec8d, N> result{}`) become
  functions `ℕ → ℚ` that return `0` at every index the code never writes;
  reads past the written range of a layer thus read `0`, exactly as in the
  zero-initialized buffers of the source.
* A caller-supplied Boys table (`const Vec8d*`, at least `L_total+1` entries)
  becomes a function `Boys : ℕ → ℚ`.
* Template instantiations at negative indices (e.g. `CoulombR<-1,u,v,N>`)
  select the primary template, which returns `0`; where such a value is
  multiplied by a coefficient that is itself `0` (e.g. `Vec8d(t-1)` at `t = 1`)
  we write the product `0 * 0` literally.
-/

/-- `constexpr int MAX_L = 4;` — the maximum supported angular momentum of the
layered Hermite-E evaluator (`hermite_e_layered.hpp`). -/
def MAX_L : ℕ := 4

/-- `constexpr int MAX_T = 2 * MAX_L + 1;` — the size of a Hermite-E layer
(`hermite_e_layered.hpp`). -/
def MAX_T : ℕ := 2 * MAX_L + 1

/-- `constexpr int MAX_R_L = 16;` — maximum supported total angular momentum of
the layered Coulomb-R evaluator (`coulomb_r_layered.hpp`). -/
def MAX_R_L : ℕ := 16

/-- `constexpr int tetrahedral(int L) { return (L+1)*(L+2)*(L+3)/6; }`
(`coulomb_r_layered.hpp`).  C++ `int` division truncates toward zero; for every
argument the function is applied to (`L ≥ -1`) the numerator is a non-negative
multiple of 6, so truncating and Euclidean division agree and we use `ℤ`
division directly. -/
def tetrahedral (L : ℤ) : ℤ := (L + 1) * (L + 2) * (L + 3) / 6

/-- `constexpr int triangular(int L) { return (L+1)*(L+2)/2; }`
(`coulomb_r_layered.hpp`). -/
def triangular (L : ℤ) : ℤ := (L + 1) * (L + 2) / 2

/-- `constexpr int r_index(int t, int u, int v)` (`coulomb_r_layered.hpp`):
`tetrahedral(t+u+v-1) + triangular(u+v-1) + v`. -/
def r_index (t u v : ℤ) : ℤ :=
  tetrahedral (t + u + v - 1) + triangular (u + v - 1) + v

/-- `constexpr int MAX_R_SIZE = tetrahedral(MAX_R_L);`
(`coulomb_r_layered.hpp`), as a natural number (`tetrahedral 16 = 969`). -/
def MAX_R_SIZE : ℕ := 969

/-- Natural-number form of `r_index` on non-negative triples:
`tetrahedral(L-1) = L(L+1)(L+2)/6` and `triangular(s-1) = s(s+1)/2` for
`L, s ≥ 0`, so `r_index(t,u,v) = tet3 (t+u+v) + tri2 (u+v) + v`.
The agreement with the `ℤ` source function is proved in `r_index_eq_rIndexN`. -/
def tri2 (s : ℕ) : ℕ := s * (s + 1) / 2

/-- `tet3 m = m(m+1)(m+2)/6`, the number of triples `(t,u,v)` with
`t+u+v < m`; equals `tetrahedral (m-1)` of the source for `m ≥ 0`. -/
def tet3 (m : ℕ) : ℕ := m * (m + 1) * (m + 2) / 6

/-- Natural-number form of the source's `r_index` on non-negative triples. -/
def rIndexN (t u v : ℕ) : ℕ := tet3 (t + u + v) + tri2 (u + v) + v

/-- Natural-number form of the source's `tetrahedral` on non-negative
arguments (the buffer-size function). -/
def tetN (L : ℕ) : ℕ := (L + 1) * (L + 2) * (L + 3) / 6

/-- Brute-force Hermite coefficients on the B side: `HermiteE<0,nB,t>` from
`hermite_e.hpp` (base case `E^{0,0}_0 = 1`, the primary template returning `0`
for `t` outside `0..nB`, the B-side `t = 0` and `t > 0` recurrences).
Arguments: `nB t PA PB p`. -/
def HermiteEB : ℕ → ℕ → ℚ → ℚ → ℚ → ℚ
  | 0, 0, _PA, _PB, _p => 1
  | 0, _t + 1, _PA, _PB, _p => 0
  | nB + 1, 0, PA, PB, p =>
      PB * HermiteEB nB 0 PA PB p + 1 * HermiteEB nB 1 PA PB p
  | nB + 1, t + 1, PA, PB, p =>
      if t + 1 ≤ nB + 1 then
        (1/2) / p * HermiteEB nB t PA PB p + PB * HermiteEB nB (t + 1) PA PB p
          + ((t + 2 : ℕ) : ℚ) * HermiteEB nB (t + 2) PA PB p
      else 0

/-- Brute-force Hermite coefficients `HermiteE<nA,nB,t>::compute` from
`hermite_e.hpp`.  For `nA = 0` dispatch goes to the B-side chain `HermiteEB`;
for `nA > 0` the A-side/general recurrences decrement `nA` (they are textually
identical for `nB = 0` and `nB > 0` in the source), with the primary template
returning `0` when `t > nA + nB`.  Arguments: `nA nB t PA PB p`. -/
def HermiteE : ℕ → ℕ → ℕ → ℚ → ℚ → ℚ → ℚ
  | 0, nB, t, PA, PB, p => HermiteEB nB t PA PB p
  | nA + 1, nB, 0, PA, PB, p =>
      PA * HermiteE nA nB 0 PA PB p + 1 * HermiteE nA nB 1 PA PB p
  | nA + 1, nB, t + 1, PA, PB, p =>
      if t + 1 ≤ nA + 1 + nB then
        (1/2) / p * HermiteE nA nB t PA PB p + PA * HermiteE nA nB (t + 1) PA PB p
          + ((t + 2 : ℕ) : ℚ) * HermiteE nA nB (t + 2) PA PB p
      else 0

/-- Layered Hermite-E evaluator, B-side chain: `HermiteELayer<0,nB>::compute`
from `hermite_e_layered.hpp` (and the `<0,0>` base specialization).  The
returned `std::array<Vec8d, MAX_T>` is modelled as a function `ℕ → ℚ`; indices
the code never writes hold `0`, matching the zero-initialized array.
Arguments: `nB PA PB p i`, with `i` the array index `t`. -/
def HermiteELayerB : ℕ → ℚ → ℚ → ℚ → ℕ → ℚ
  | 0, _PA, _PB, _p, i => if i = 0 then 1 else 0
  | nB + 1, PA, PB, p, i =>
      -- prev = HermiteELayer<0, nB>::compute(PA, PB, p), computed once
      let prev := HermiteELayerB nB PA PB p
      let inv2p := (1/2 : ℚ) / p
      if i = 0 then PB * prev 0 + prev 1
      else if i < nB + 1 then
        inv2p * prev (i - 1) + PB * prev i + ((i + 1 : ℕ) : ℚ) * prev (i + 1)
      else if i = nB + 1 then inv2p * prev nB + PB * prev (nB + 1)
      else 0

/-- Layered Hermite-E evaluator `HermiteELayer<nA,nB>::compute` from
`hermite_e_layered.hpp`.  `nA = 0` dispatches to the `<0,nB>` partial
specialization chain; the primary template (`nA > 0`) computes the previous
layer `<nA-1,nB>` once, then fills index `0`, the loop range
`1 ≤ t < nA+nB`, and the top index `t = nA+nB` (the `nA+nB > 0` guard of the
source is always true when `nA > 0`).  Arguments: `nA nB PA PB p i`. -/
def HermiteELayer : ℕ → ℕ → ℚ → ℚ → ℚ → ℕ → ℚ
  | 0, nB, PA, PB, p, i => HermiteELayerB nB PA PB p i
  | nA + 1, nB, PA, PB, p, i =>
      let prev := HermiteELayer nA nB PA PB p
      let inv2p := (1/2 : ℚ) / p
      if i = 0 then PA * prev 0 + prev 1
      else if i < nA + 1 + nB then
        inv2p * prev (i - 1) + PA * prev i + ((i + 1 : ℕ) : ℚ) * prev (i + 1)
      else if i = nA + 1 + nB then inv2p * prev (i - 1) + PA * prev i
      else 0

/-- Generated layered Hermite-E evaluator, B-side chain:
`HermiteECoeffLayer<0,nB>::compute` from `generated/hermite_coeff_layered.hpp`
(and its `<0,0>` specialization).  The callee writes `out[0..nA+nB]` into a
caller-provided buffer; every recursive caller zero-initializes that buffer
(`Vec8d prev[nA+nB+2] = {}`), so the function model returns `0` outside the
written range, matching every read the algorithm performs.  Unlike
`HermiteELayer` there is no special top-index case: the uniform recurrence
runs for all `1 ≤ t ≤ nB` and reads the zero-padded `prev[t+1]`. -/
def HermiteECoeffLayerB : ℕ → ℚ → ℚ → ℚ → ℕ → ℚ
  | 0, _PA, _PB, _p, i => if i = 0 then 1 else 0
  | nB + 1, PA, PB, p, i =>
      let prev := HermiteECoeffLayerB nB PA PB p
      if i = 0 then PB * prev 0 + 1 * prev 1
      else if i < nB + 2 then
        (1/2) / p * prev (i - 1) + PB * prev i + ((i + 1 : ℕ) : ℚ) * prev (i + 1)
      else 0

/-- Generated layered Hermite-E evaluator `HermiteECoeffLayer<nA,nB>::compute`
from `generated/hermite_coeff_layered.hpp`.  For `nA > 0` the two source
specializations (`nB = 0` and `nB > 0`) have textually identical bodies and
both recurse on `<nA-1,nB>`; the loop `1 ≤ t < N_VALUES = nA+nB+1` handles the
top index by the uniform recurrence over the zero-padded `prev`. -/
def HermiteECoeffLayer : ℕ → ℕ → ℚ → ℚ → ℚ → ℕ → ℚ
  | 0, nB, PA, PB, p, i => HermiteECoeffLayerB nB PA PB p i
  | nA + 1, nB, PA, PB, p, i =>
      let prev := HermiteECoeffLayer nA nB PA PB p
      if i = 0 then PA * prev 0 + 1 * prev 1
      else if i < nA + nB + 2 then
        (1/2) / p * prev (i - 1) + PA * prev i + ((i + 1 : ℕ) : ℚ) * prev (i + 1)
      else 0

/-- Brute-force Coulomb-R, Z-chain: `CoulombR<0,0,v,N>` from `coulomb_aux.hpp`
(base case `R_{000}^{(N)} = Boys[N]` and the Z-recurrence).  At `v = 1` the
source computes `Vec8d(v-1) * CoulombR<0,0,-1,N+1>`: the negative index
selects the primary template (value `0`) and the coefficient is `0`, written
here as `0 * 0`.  Arguments: `v N PCz Boys`. -/
def CoulombRZ : ℕ → ℕ → ℚ → (ℕ → ℚ) → ℚ
  | 0, N, _PCz, Boys => Boys N
  | 1, N, PCz, Boys => PCz * CoulombRZ 0 (N + 1) PCz Boys + 0 * 0
  | v + 2, N, PCz, Boys =>
      PCz * CoulombRZ (v + 1) (N + 1) PCz Boys
        + ((v + 1 : ℕ) : ℚ) * CoulombRZ v (N + 1) PCz Boys

/-- Brute-force Coulomb-R, Y-chain: `CoulombR<0,u,v,N>` from `coulomb_aux.hpp`
(`u = 0` dispatches to the Z-chain; the Y-recurrence at `u = 1` reads the
primary template at index `-1`, coefficient `0`). Arguments: `u v N PCy PCz Boys`. -/
def CoulombRY : ℕ → ℕ → ℕ → ℚ → ℚ → (ℕ → ℚ) → ℚ
  | 0, v, N, _PCy, PCz, Boys => CoulombRZ v N PCz Boys
  | 1, v, N, PCy, PCz, Boys => PCy * CoulombRY 0 v (N + 1) PCy PCz Boys + 0 * 0
  | u + 2, v, N, PCy, PCz, Boys =>
      PCy * CoulombRY (u + 1) v (N + 1) PCy PCz Boys
        + ((u + 1 : ℕ) : ℚ) * CoulombRY u v (N + 1) PCy PCz Boys

/-- Brute-force Coulomb-R auxiliary integrals `CoulombR<t,u,v,N>::compute`
from `coulomb_aux.hpp`.  `t = 0` dispatches to the Y-chain; the X-recurrence
at `t = 1` reads the primary template at index `-1` with coefficient `0`.
Arguments: `t u v N PCx PCy PCz Boys`. -/
def CoulombR : ℕ → ℕ → ℕ → ℕ → ℚ → ℚ → ℚ → (ℕ → ℚ) → ℚ
  | 0, u, v, N, _PCx, PCy, PCz, Boys => CoulombRY u v N PCy PCz Boys
  | 1, u, v, N, PCx, PCy, PCz, Boys =>
      PCx * CoulombR 0 u v (N + 1) PCx PCy PCz Boys + 0 * 0
  | t + 2, u, v, N, PCx, PCy, PCz, Boys =>
      PCx * CoulombR (t + 1) u v (N + 1) PCx PCy PCz Boys
        + ((t + 1 : ℕ) : ℚ) * CoulombR t u v (N + 1) PCx PCy PCz Boys

/-- One iteration of the `for (int N = L_total-1; N >= 0; --N)` loop of
`CoulombRLayer<L_total>::compute` (`coulomb_r_layered.hpp`): build the shell
at auxiliary order `N` with `L_max_at_N = Lmax` from the `N+1` shell `prev`.
The buffer, addressed in the source through `r_index`, is modelled as a
function of the multi-index `(t,u,v)` (`r_index` is injective on the valid
triples, see `r_index_bijective_upto8`).  Entries with `t+u+v > Lmax` are `0`:
the loop clears `curr[0 .. tetrahedral(Lmax)-1]` and both buffers start
zero-initialized, and offsets of triples with larger sum lie at
`tetrahedral(Lmax)` or beyond and are only ever written while holding shells
of smaller `L_max`, hence remain `0`.  Within the shell the base case writes
`(0,0,0) = Boys[N]` and the z→y→x sub-recurrences fill the rest; each write
target is written exactly once and all reads go to `prev`, so the fixed
z→y→x order is value-irrelevant and the buffer is a function of `prev`. -/
def CoulombShellStep (PCx PCy PCz BoysN : ℚ) (Lmax : ℕ)
    (prev : ℕ → ℕ → ℕ → ℚ) (t u v : ℕ) : ℚ :=
  if Lmax < t + u + v then 0
  else
    match t, u, v with
    | 0, 0, 0 => BoysN
    | 0, 0, v + 1 =>
        -- Z-recurrence: term2 is `(v_c > 1) ? Vec8d(v_c-1) * prev[...] : 0`
        PCz * prev 0 0 v + (if 0 < v then ((v : ℕ) : ℚ) * prev 0 0 (v - 1) else 0)
    | 0, u + 1, v =>
        PCy * prev 0 u v + (if 0 < u then ((u : ℕ) : ℚ) * prev 0 (u - 1) v else 0)
    | t + 1, u, v =>
        PCx * prev t u v + (if 0 < t then ((t : ℕ) : ℚ) * prev (t - 1) u v else 0)

/-- The buffer state of `CoulombRLayer<L_total>::compute` at auxiliary order
`N`, where `Lmax` is the shell degree `L_total - N` still to be filled.  The
initialization `prev[0] = Boys[L_total]` is the `Lmax = 0` case (reached with
`N = L_total`); each loop iteration applies `CoulombShellStep` to the shell at
order `N+1`.  The full computation for `L_total` is `CoulombRShell … 0 L_total`
(see `CoulombRLayer`); unrolling reproduces the source loop from
`N = L_total - 1` down to `0`, reading `Boys[N]` at each level. -/
def CoulombRShell (PCx PCy PCz : ℚ) (Boys : ℕ → ℚ) : ℕ → ℕ → ℕ → ℕ → ℕ → ℚ
  | N, 0, t, u, v => if t = 0 ∧ u = 0 ∧ v = 0 then Boys N else 0
  | N, Lmax + 1, t, u, v =>
      CoulombShellStep PCx PCy PCz (Boys N) (Lmax + 1)
        (CoulombRShell PCx PCy PCz Boys (N + 1) Lmax) t u v

/-- `CoulombRLayer<L_total>::compute(PCx, PCy, PCz, Boys)` from
`coulomb_r_layered.hpp`, as a function of the multi-index `(t,u,v)` (the
source array is addressed at offset `r_index(t,u,v)`).  For `Ltot = 0` the
loop body never runs and the result is the initial buffer, matching the
source's `CoulombRLayer<0>` specialization (`result[0] = Boys[0]`). -/
def CoulombRLayer (Ltot : ℕ) (PCx PCy PCz : ℚ) (Boys : ℕ → ℚ)
    (t u v : ℕ) : ℚ :=
  CoulombRShell PCx PCy PCz Boys 0 Ltot t u v

/-- `HermiteDerivPA<nA,nB,t>::compute` from `hermite_grad.hpp`:
`∂E^{nA,nB}_t/∂PA = nA · E^{nA-1,nB}_t` for `nA > 0` and `t ≤ nA+nB`; the
`nA = 0` specialization and the primary template both return `0`. -/
def HermiteDerivPA (nA nB t : ℕ) (PA PB p : ℚ) : ℚ :=
  match nA with
  | 0 => 0
  | nA' + 1 =>
      if t ≤ nA' + 1 + nB then ((nA' + 1 : ℕ) : ℚ) * HermiteE nA' nB t PA PB p
      else 0

/-- `HermiteDerivPB<nA,nB,t>::compute` from `hermite_grad.hpp`:
`∂E^{nA,nB}_t/∂PB = nB · E^{nA,nB-1}_t` for `nB > 0` and `t ≤ nA+nB`. -/
def HermiteDerivPB (nA nB t : ℕ) (PA PB p : ℚ) : ℚ :=
  match nB with
  | 0 => 0
  | nB' + 1 =>
      if t ≤ nA + (nB' + 1) then ((nB' + 1 : ℕ) : ℚ) * HermiteE nA nB' t PA PB p
      else 0

/-- `HermiteDerivA<nA,nB,t>::compute` from `hermite_grad.hpp`: the chain rule
`∂E/∂A = (∂E/∂PA)·(−αB/p) + (∂E/∂PB)·(αA/p)`, with the explicit `<0,0,0>`
specialization returning `0`. -/
def HermiteDerivA (nA nB t : ℕ) (PA PB p aA aB : ℚ) : ℚ :=
  if nA = 0 ∧ nB = 0 ∧ t = 0 then 0
  else
    HermiteDerivPA nA nB t PA PB p * (-aB / p)
      + HermiteDerivPB nA nB t PA PB p * (aA / p)

/-- `HermiteDerivB<nA,nB,t>::compute` from `hermite_grad.hpp`: the chain rule
`∂E/∂B = (∂E/∂PA)·(αB/p) + (∂E/∂PB)·(−αA/p)`, with the explicit `<0,0,0>`
specialization returning `0`. -/
def HermiteDerivB (nA nB t : ℕ) (PA PB p aA aB : ℚ) : ℚ :=
  if nA = 0 ∧ nB = 0 ∧ t = 0 then 0
  else
    HermiteDerivPA nA nB t PA PB p * (aB / p)
      + HermiteDerivPB nA nB t PA PB p * (-aA / p)

/-- The degenerate Boys table `[1,1,1,1,1]` used by the spec's concrete
Coulomb-R scenario. -/
def boysOnes : ℕ → ℚ := fun n => if n < 5 then 1 else 0

/-!
## Helper lemmas

Out-of-range values, layer/brute-force agreement, and the arithmetic of the
triangular/tetrahedral indexing scheme.
-/


theorem HermiteEB_out_of_range (nB t : ℕ) (h : nB < t) (PA PB p : ℚ) :
    HermiteEB nB t PA PB p = 0 := by
  match nB, t with
  | 0, t + 1 => simp [HermiteEB]
  | nB + 1, t + 1 => simp only [HermiteEB]; rw [if_neg (by omega)]

theorem HermiteE_out_of_range (nA nB t : ℕ) (h : nA + nB < t) (PA PB p : ℚ) :
    HermiteE nA nB t PA PB p = 0 := by
  match nA, t with
  | 0, t => exact HermiteEB_out_of_range nB t (by omega) PA PB p
  | nA + 1, t + 1 => simp only [HermiteE]; rw [if_neg (by omega)]

theorem HermiteELayerB_eq (nB : ℕ) (PA PB p : ℚ) :
    ∀ i, HermiteELayerB nB PA PB p i = HermiteEB nB i PA PB p := by
  induction nB with
  | zero =>
      intro i
      match i with
      | 0 => simp [HermiteELayerB, HermiteEB]
      | i + 1 => simp [HermiteELayerB, HermiteEB]
  | succ nB ih =>
      intro i
      match i with
      | 0 =>
          simp only [HermiteELayerB, HermiteEB]
          rw [if_pos trivial, ih 0, ih 1]
          ring
      | i + 1 =>
          simp only [HermiteELayerB, HermiteEB]
          rcases Nat.lt_trichotomy (i + 1) (nB + 1) with hlt | heq | hgt
          · rw [if_neg (by omega), if_pos hlt, if_pos (by omega : i + 1 ≤ nB + 1)]
            simp only [Nat.add_sub_cancel]
            rw [ih i, ih (i + 1), ih (i + 2)]
          · rw [if_neg (by omega), if_neg (by omega), if_pos heq,
              if_pos (by omega : i + 1 ≤ nB + 1)]
            rw [ih nB, ih (nB + 1)]
            rw [HermiteEB_out_of_range nB (i + 2) (by omega)]
            have h1 : i = nB := by omega
            subst h1
            ring
          · rw [if_neg (by omega), if_neg (by omega), if_neg (by omega),
              if_neg (by omega)]

theorem HermiteELayerB_out_of_range (nB i : ℕ) (h : nB < i) (PA PB p : ℚ) :
    HermiteELayerB nB PA PB p i = 0 := by
  rw [HermiteELayerB_eq]
  exact HermiteEB_out_of_range nB i h PA PB p

theorem HermiteELayer_eq (nA nB : ℕ) (PA PB p : ℚ) :
    ∀ i, HermiteELayer nA nB PA PB p i = HermiteE nA nB i PA PB p := by
  induction nA with
  | zero =>
      intro i
      simp only [HermiteELayer, HermiteE]
      exact HermiteELayerB_eq nB PA PB p i
  | succ nA ih =>
      intro i
      match i with
      | 0 =>
          simp only [HermiteELayer, HermiteE]
          rw [if_pos trivial, ih 0, ih 1]
          ring
      | i + 1 =>
          simp only [HermiteELayer, HermiteE]
          rcases Nat.lt_trichotomy (i + 1) (nA + 1 + nB) with hlt | heq | hgt
          · rw [if_neg (by omega), if_pos hlt, if_pos (by omega : i + 1 ≤ nA + 1 + nB)]
            simp only [Nat.add_sub_cancel]
            rw [ih i, ih (i + 1), ih (i + 2)]
          · rw [if_neg (by omega), if_neg (by omega), if_pos heq,
              if_pos (by omega : i + 1 ≤ nA + 1 + nB)]
            simp only [Nat.add_sub_cancel]
            rw [ih i, ih (i + 1)]
            rw [HermiteE_out_of_range nA nB (i + 2) (by omega),
              HermiteE_out_of_range nA nB (i + 1) (by omega)]
            ring
          · rw [if_neg (by omega), if_neg (by omega), if_neg (by omega),
              if_neg (by omega)]

theorem HermiteELayer_out_of_range (nA nB i : ℕ) (h : nA + nB < i) (PA PB p : ℚ) :
    HermiteELayer nA nB PA PB p i = 0 := by
  rw [HermiteELayer_eq]
  exact HermiteE_out_of_range nA nB i h PA PB p

theorem HermiteECoeffLayerB_eq (nB : ℕ) (PA PB p : ℚ) :
    ∀ i, HermiteECoeffLayerB nB PA PB p i = HermiteEB nB i PA PB p := by
  induction nB with
  | zero =>
      intro i
      match i with
      | 0 => simp [HermiteECoeffLayerB, HermiteEB]
      | i + 1 => simp [HermiteECoeffLayerB, HermiteEB]
  | succ nB ih =>
      intro i
      match i with
      | 0 =>
          simp only [HermiteECoeffLayerB, HermiteEB]
          rw [if_pos trivial, ih 0, ih 1]
      | i + 1 =>
          simp only [HermiteECoeffLayerB, HermiteEB]
          rcases Nat.lt_trichotomy (i + 1) (nB + 1) with hlt | heq | hgt
          · rw [if_neg (by omega), if_pos (by omega : i + 1 < nB + 2),
              if_pos (by omega : i + 1 ≤ nB + 1)]
            simp only [Nat.add_sub_cancel]
            rw [ih i, ih (i + 1), ih (i + 2)]
          · -- top index: the uniform recurrence reads the zero-padded prev
            rw [if_neg (by omega), if_pos (by omega : i + 1 < nB + 2),
              if_pos (by omega : i + 1 ≤ nB + 1)]
            simp only [Nat.add_sub_cancel]
            rw [ih i, ih (i + 1), ih (i + 2)]
          · rw [if_neg (by omega), if_neg (by omega), if_neg (by omega)]

theorem HermiteECoeffLayer_eq (nA nB : ℕ) (PA PB p : ℚ) :
    ∀ i, HermiteECoeffLayer nA nB PA PB p i = HermiteE nA nB i PA PB p := by
  induction nA with
  | zero =>
      intro i
      simp only [HermiteECoeffLayer, HermiteE]
      exact HermiteECoeffLayerB_eq nB PA PB p i
  | succ nA ih =>
      intro i
      match i with
      | 0 =>
          simp only [HermiteECoeffLayer, HermiteE]
          rw [if_pos trivial, ih 0, ih 1]
      | i + 1 =>
          simp only [HermiteECoeffLayer, HermiteE]
          rcases Nat.lt_trichotomy (i + 1) (nA + 1 + nB) with hlt | heq | hgt
          · rw [if_neg (by omega), if_pos (by omega : i + 1 < nA + nB + 2),
              if_pos (by omega : i + 1 ≤ nA + 1 + nB)]
            simp only [Nat.add_sub_cancel]
            rw [ih i, ih (i + 1), ih (i + 2)]
          · rw [if_neg (by omega), if_pos (by omega : i + 1 < nA + nB + 2),
              if_pos (by omega : i + 1 ≤ nA + 1 + nB)]
            simp only [Nat.add_sub_cancel]
            rw [ih i, ih (i + 1), ih (i + 2)]
          · rw [if_neg (by omega), if_neg (by omega), if_neg (by omega)]

theorem CoulombR_t0 (u v N : ℕ) (PCx PCy PCz : ℚ) (Boys : ℕ → ℚ) :
    CoulombR 0 u v N PCx PCy PCz Boys = CoulombRY u v N PCy PCz Boys := rfl

theorem CoulombRY_u0 (v N : ℕ) (PCy PCz : ℚ) (Boys : ℕ → ℚ) :
    CoulombRY 0 v N PCy PCz Boys = CoulombRZ v N PCz Boys := rfl

theorem CoulombRShell_eq (PCx PCy PCz : ℚ) (Boys : ℕ → ℚ) :
    ∀ Lmax N t u v, t + u + v ≤ Lmax →
      CoulombRShell PCx PCy PCz Boys N Lmax t u v
        = CoulombR t u v N PCx PCy PCz Boys := by
  intro Lmax
  induction Lmax with
  | zero =>
      intro N t u v h
      have ht : t = 0 := by omega
      have hu : u = 0 := by omega
      have hv : v = 0 := by omega
      subst ht; subst hu; subst hv
      simp [CoulombRShell, CoulombR_t0, CoulombRY_u0, CoulombRZ]
  | succ Lmax ih =>
      intro N t u v h
      match t, u, v with
      | 0, 0, 0 =>
          simp only [CoulombRShell, CoulombShellStep, CoulombR_t0, CoulombRY_u0, CoulombRZ]
          rw [if_neg (by omega)]
      | 0, 0, 1 =>
          simp only [CoulombRShell, CoulombShellStep]
          rw [if_neg (by omega), if_neg (by omega)]
          rw [ih (N + 1) 0 0 0 (by omega)]
          simp only [CoulombR_t0, CoulombRY_u0, CoulombRZ]
          ring
      | 0, 0, v + 2 =>
          simp only [CoulombRShell, CoulombShellStep]
          rw [if_neg (by omega), if_pos (by omega)]
          simp only [Nat.add_sub_cancel]
          rw [ih (N + 1) 0 0 (v + 1) (by omega), ih (N + 1) 0 0 v (by omega)]
          simp only [CoulombR_t0, CoulombRY_u0, CoulombRZ]
      | 0, 1, v =>
          simp only [CoulombRShell, CoulombShellStep]
          rw [if_neg (by omega), if_neg (by omega)]
          rw [ih (N + 1) 0 0 v (by omega)]
          simp only [CoulombR_t0, CoulombRY_u0, CoulombRY]
          ring
      | 0, u + 2, v =>
          simp only [CoulombRShell, CoulombShellStep]
          rw [if_neg (by omega), if_pos (by omega)]
          simp only [Nat.add_sub_cancel]
          rw [ih (N + 1) 0 (u + 1) v (by omega), ih (N + 1) 0 u v (by omega)]
          simp only [CoulombR_t0, CoulombRY]
      | 1, u, v =>
          simp only [CoulombRShell, CoulombShellStep]
          rw [if_neg (by omega), if_neg (by omega)]
          rw [ih (N + 1) 0 u v (by omega)]
          simp only [CoulombR, CoulombR_t0]
          ring
      | t + 2, u, v =>
          simp only [CoulombRShell, CoulombShellStep]
          rw [if_neg (by omega), if_pos (by omega)]
          simp only [Nat.add_sub_cancel]
          rw [ih (N + 1) (t + 1) u v (by omega), ih (N + 1) t u v (by omega)]
          simp only [CoulombR]

theorem six_dvd_mul_triple (m : ℕ) : 6 ∣ m * (m + 1) * (m + 2) := by
  induction m with
  | zero => simp
  | succ m ih =>
      have key : (m+1) * (m+1+1) * (m+1+2) = m * (m+1) * (m+2) + 3 * ((m+1) * (m+1+1)) := by
        ring
      obtain ⟨c, hc⟩ := ih
      obtain ⟨d, hd⟩ := Nat.even_mul_succ_self (m + 1)
      omega

theorem tri2_succ (s : ℕ) : tri2 (s + 1) = tri2 s + (s + 1) := by
  obtain ⟨c, hc⟩ := Nat.even_mul_succ_self s
  have key : (s+1) * (s+1+1) = s * (s+1) + 2 * (s+1) := by ring
  simp only [tri2]
  omega

theorem tet3_succ (m : ℕ) : tet3 (m + 1) = tet3 m + tri2 (m + 1) := by
  obtain ⟨c, hc⟩ := six_dvd_mul_triple m
  obtain ⟨d, hd⟩ := Nat.even_mul_succ_self (m + 1)
  have key : (m+1) * (m+1+1) * (m+1+2) = m * (m+1) * (m+2) + 3 * ((m+1) * (m+1+1)) := by
    ring
  simp only [tet3, tri2]
  omega

theorem tri2_mono : Monotone tri2 :=
  monotone_nat_of_le_succ fun s => by rw [tri2_succ]; omega

theorem tet3_mono : Monotone tet3 :=
  monotone_nat_of_le_succ fun m => by rw [tet3_succ]; omega

theorem tetN_eq_tet3 (L : ℕ) : tetN L = tet3 (L + 1) := rfl

theorem rIndexN_lt_tet3 (t u v m : ℕ) (h : t + u + v ≤ m) :
    rIndexN t u v < tet3 (m + 1) := by
  have h1 : tri2 (u + v) + v < tri2 (u + v + 1) := by
    rw [tri2_succ]; omega
  have h2 : tri2 (u + v + 1) ≤ tri2 (t + u + v + 1) :=
    tri2_mono (by omega)
  have h3 : tet3 (t + u + v) + tri2 (t + u + v + 1) = tet3 (t + u + v + 1) :=
    (tet3_succ (t + u + v)).symm
  have h4 : tet3 (t + u + v + 1) ≤ tet3 (m + 1) := tet3_mono (by omega)
  simp only [rIndexN]
  omega

theorem rIndexN_lt_tetN (t u v m : ℕ) (h : t + u + v ≤ m) :
    rIndexN t u v < tetN m := by
  rw [tetN_eq_tet3]; exact rIndexN_lt_tet3 t u v m h

theorem monotone_interval_uniq (f : ℕ → ℕ) (hf : Monotone f) (a b x : ℕ)
    (ha : f a ≤ x) (ha' : x < f (a + 1)) (hb : f b ≤ x) (hb' : x < f (b + 1)) :
    a = b := by
  rcases Nat.lt_trichotomy a b with h1 | h1 | h1
  · exact absurd (le_trans (hf (by omega : a + 1 ≤ b)) hb) (by omega)
  · exact h1
  · exact absurd (le_trans (hf (by omega : b + 1 ≤ a)) ha) (by omega)

theorem rIndexN_inj (t u v t' u' v' : ℕ)
    (h : rIndexN t u v = rIndexN t' u' v') : t = t' ∧ u = u' ∧ v = v' := by
  have hsum : t + u + v = t' + u' + v' := by
    refine monotone_interval_uniq tet3 tet3_mono _ _ (rIndexN t u v) ?_ ?_ ?_ ?_
    · simp only [rIndexN]; omega
    · exact rIndexN_lt_tet3 t u v (t + u + v) le_rfl
    · rw [h]; simp only [rIndexN]; omega
    · rw [h]; exact rIndexN_lt_tet3 t' u' v' (t' + u' + v') le_rfl
  have hval : tri2 (u + v) + v = tri2 (u' + v') + v' := by
    have := h
    simp only [rIndexN, hsum] at this
    omega
  have hs : u + v = u' + v' := by
    refine monotone_interval_uniq tri2 tri2_mono _ _ (tri2 (u + v) + v) ?_ ?_ ?_ ?_
    · omega
    · rw [tri2_succ]; omega
    · omega
    · rw [hval, tri2_succ]; omega
  have hv : v = v' := by
    rw [hs] at hval
    omega
  refine ⟨by omega, by omega, hv⟩

theorem rIndexN_surj (L k : ℕ) (hk : k < tetN L) :
    ∃ t u v, t + u + v ≤ L ∧ rIndexN t u v = k := by
  rw [tetN_eq_tet3] at hk
  set m := Nat.findGreatest (fun m => tet3 m ≤ k) L with hm_def
  have hm_le : m ≤ L := Nat.findGreatest_le L
  have hm1 : tet3 m ≤ k := by
    refine Nat.findGreatest_spec (P := fun m => tet3 m ≤ k) (Nat.zero_le L) ?_
    simp [tet3]
  have hm2 : k < tet3 (m + 1) := by
    rcases Nat.lt_or_ge m L with hmL | hmL
    · have := Nat.findGreatest_is_greatest (P := fun m => tet3 m ≤ k)
        (by omega : m < m + 1) (by omega : m + 1 ≤ L)
      omega
    · have hmL' : m = L := by omega
      rw [hmL']; exact hk
  set r := k - tet3 m with hr_def
  have hr : r < tri2 (m + 1) := by
    rw [tet3_succ] at hm2; omega
  set s := Nat.findGreatest (fun s => tri2 s ≤ r) m with hs_def
  have hs_le : s ≤ m := Nat.findGreatest_le m
  have hs1 : tri2 s ≤ r := by
    refine Nat.findGreatest_spec (P := fun s => tri2 s ≤ r) (Nat.zero_le m) ?_
    simp [tri2]
  have hs2 : r < tri2 (s + 1) := by
    rcases Nat.lt_or_ge s m with hsm | hsm
    · have := Nat.findGreatest_is_greatest (P := fun s => tri2 s ≤ r)
        (by omega : s < s + 1) (by omega : s + 1 ≤ m)
      omega
    · have hsm' : s = m := by omega
      rw [hsm']; exact hr
  have hv : r - tri2 s ≤ s := by
    rw [tri2_succ] at hs2; omega
  refine ⟨m - s, s - (r - tri2 s), r - tri2 s, by omega, ?_⟩
  have e1 : m - s + (s - (r - tri2 s)) + (r - tri2 s) = m := by omega
  have e2 : s - (r - tri2 s) + (r - tri2 s) = s := by omega
  simp only [rIndexN, e1, e2]
  omega

theorem tetrahedral_natCast (L : ℕ) :
    tetrahedral ((L : ℤ) - 1) = (tet3 L : ℤ) := by
  have h1 : ((L : ℤ) - 1 + 1) * ((L : ℤ) - 1 + 2) * ((L : ℤ) - 1 + 3)
      = ((L * (L + 1) * (L + 2) : ℕ) : ℤ) := by push_cast; ring
  rw [tetrahedral, h1, tet3, Int.natCast_div]
  norm_num

theorem triangular_natCast (s : ℕ) :
    triangular ((s : ℤ) - 1) = (tri2 s : ℤ) := by
  have h1 : ((s : ℤ) - 1 + 1) * ((s : ℤ) - 1 + 2) = ((s * (s + 1) : ℕ) : ℤ) := by
    push_cast; ring
  rw [triangular, h1, tri2, Int.natCast_div]
  norm_num

theorem tetrahedral_natCast' (L : ℕ) :
    tetrahedral (L : ℤ) = (tetN L : ℤ) := by
  have h1 : ((L : ℤ) + 1) * ((L : ℤ) + 2) * ((L : ℤ) + 3)
      = (((L + 1) * (L + 2) * (L + 3) : ℕ) : ℤ) := by push_cast; ring
  rw [tetrahedral, h1, tetN, Int.natCast_div]
  norm_num

theorem r_index_eq_rIndexN (t u v : ℕ) :
    r_index (t : ℤ) (u : ℤ) (v : ℤ) = (rIndexN t u v : ℤ) := by
  have h1 : (t : ℤ) + u + v - 1 = ((t + u + v : ℕ) : ℤ) - 1 := by push_cast; ring
  have h2 : (u : ℤ) + v - 1 = ((u + v : ℕ) : ℤ) - 1 := by push_cast; ring
  rw [r_index, h1, h2, tetrahedral_natCast, triangular_natCast, rIndexN]
  push_cast
  ring


theorem tetN_mono {a b : ℕ} (h : a ≤ b) : tetN a ≤ tetN b := by
  rw [tetN_eq_tet3, tetN_eq_tet3]
  exact tet3_mono (by omega)

/-!
## The claims
-/

/-- C1: for every `(nA,nB,t)` with `t ≤ nA+nB ≤ 8` and every geometry
`(PA, PB, p)` with `p ≠ 0`, the layered Hermite-E evaluator's output at index
`t` (`HermiteELayer<nA,nB>::compute(PA,PB,p)[t]`) equals the brute-force,
unmemoized recursive evaluation `HermiteE<nA,nB,t>::compute(PA,PB,p)` of the
same defining recurrence (exact equality: the spec's 1e-12 relative-error
allowance is floating-point slack and the two agree under exact
arithmetic). -/
theorem hermiteELayer_eq_bruteforce (nA nB t : ℕ) (ht : t ≤ nA + nB)
    (hL : nA + nB ≤ 8) (PA PB p : ℚ) (hp : p ≠ 0) :
    HermiteELayer nA nB PA PB p t = HermiteE nA nB t PA PB p :=
  HermiteELayer_eq nA nB PA PB p t

/-- Witness for C1 at `(nA,nB,t) = (1,1,0)`, `PA = 1/2`, `PB = -3/10`,
`p = 2`. -/
theorem hermiteELayer_eq_bruteforce_witness :
    (0 : ℕ) ≤ 1 + 1 ∧ (1 + 1 : ℕ) ≤ 8 ∧ ((2 : ℚ) ≠ 0) ∧
      HermiteELayer 1 1 (1/2) (-3/10) 2 0 = HermiteE 1 1 0 (1/2) (-3/10) 2 :=
  ⟨Nat.zero_le _, by decide, by simp,
    hermiteELayer_eq_bruteforce 1 1 0 (Nat.zero_le _) (by decide)
      (1/2) (-3/10) 2 (by simp)⟩

/-- C2: for every `(t,u,v)` with `t+u+v ≤ 8`, every displacement
`(PCx,PCy,PCz)` and every Boys table (modelled as a total function, covering
every table with at least `t+u+v+1` entries), the layered Coulomb-R
evaluator's entry for `(t,u,v)` — stored at offset `r_index(t,u,v)` of
`CoulombRLayer<L_total>::compute` with `L_total = t+u+v` — equals the
brute-force recursive evaluation `CoulombR<t,u,v,0>::compute` over the same
Boys table (exact equality under exact arithmetic). -/
theorem coulombRLayer_eq_bruteforce (t u v : ℕ) (h : t + u + v ≤ 8)
    (PCx PCy PCz : ℚ) (Boys : ℕ → ℚ) :
    CoulombRLayer (t + u + v) PCx PCy PCz Boys t u v
      = CoulombR t u v 0 PCx PCy PCz Boys :=
  CoulombRShell_eq PCx PCy PCz Boys (t + u + v) 0 t u v le_rfl

/-- Witness for C2 at `(t,u,v) = (1,1,0)` with `PC = (1/2, 3/10, 1/5)` and
the degenerate all-ones Boys table. -/
theorem coulombRLayer_eq_bruteforce_witness :
    (1 + 1 + 0 : ℕ) ≤ 8 ∧
      CoulombRLayer (1 + 1 + 0) (1/2) (3/10) (1/5) boysOnes 1 1 0
        = CoulombR 1 1 0 0 (1/2) (3/10) (1/5) boysOnes :=
  ⟨by decide,
    coulombRLayer_eq_bruteforce 1 1 0 (by decide) (1/2) (3/10) (1/5) boysOnes⟩

/-- C3: for every fixed `L` with `0 ≤ L ≤ 8`, the map
`(t,u,v) ↦ r_index(t,u,v)` restricted to non-negative triples with
`t+u+v ≤ L` is a bijection onto `{0, …, tetrahedral(L)-1}`: distinct triples
map to distinct offsets, every offset lies in `[0, tetrahedral L)`, and every
such offset is attained (no duplicates, no gaps). -/
theorem r_index_bijective_upto8 (L : ℕ) (hL : L ≤ 8) :
    (∀ t u v t' u' v' : ℕ, t + u + v ≤ L → t' + u' + v' ≤ L →
        r_index (t : ℤ) u v = r_index (t' : ℤ) u' v' →
        t = t' ∧ u = u' ∧ v = v') ∧
    (∀ t u v : ℕ, t + u + v ≤ L →
        0 ≤ r_index (t : ℤ) u v ∧ r_index (t : ℤ) u v < tetrahedral (L : ℤ)) ∧
    (∀ k : ℤ, 0 ≤ k → k < tetrahedral (L : ℤ) →
        ∃ t u v : ℕ, t + u + v ≤ L ∧ r_index (t : ℤ) u v = k) := by
  refine ⟨?_, ?_, ?_⟩
  · intro t u v t' u' v' _h _h' heq
    rw [r_index_eq_rIndexN, r_index_eq_rIndexN] at heq
    exact rIndexN_inj t u v t' u' v' (by exact_mod_cast heq)
  · intro t u v h
    rw [r_index_eq_rIndexN, tetrahedral_natCast']
    constructor
    · exact Int.natCast_nonneg _
    · exact_mod_cast rIndexN_lt_tetN t u v L h
  · intro k hk0 hkL
    lift k to ℕ using hk0
    rw [tetrahedral_natCast'] at hkL
    obtain ⟨t, u, v, hsum, hval⟩ := rIndexN_surj L k (by exact_mod_cast hkL)
    exact ⟨t, u, v, hsum, by rw [r_index_eq_rIndexN]; exact_mod_cast hval⟩

/-- Witness for C3 at `L = 2`. -/
theorem r_index_bijective_upto8_witness :
    (2 : ℕ) ≤ 8 ∧
      ((∀ t u v t' u' v' : ℕ, t + u + v ≤ 2 → t' + u' + v' ≤ 2 →
          r_index (t : ℤ) u v = r_index (t' : ℤ) u' v' →
          t = t' ∧ u = u' ∧ v = v') ∧
        (∀ t u v : ℕ, t + u + v ≤ 2 →
          0 ≤ r_index (t : ℤ) u v ∧ r_index (t : ℤ) u v < tetrahedral (2 : ℤ)) ∧
        (∀ k : ℤ, 0 ≤ k → k < tetrahedral (2 : ℤ) →
          ∃ t u v : ℕ, t + u + v ≤ 2 ∧ r_index (t : ℤ) u v = k)) :=
  ⟨by decide, r_index_bijective_upto8 2 (by decide)⟩

/-- C4: for every valid `(nA,nB,t)` with `t ≤ nA+nB` and all inputs
`(PA, PB, p ≠ 0, αA, αB)`, the two nuclear-position derivatives of the
gradient extension cancel exactly:
`HermiteDerivA<nA,nB,t>::compute + HermiteDerivB<nA,nB,t>::compute = 0`
(translational invariance, exact under exact arithmetic). -/
theorem hermiteDeriv_translational_invariance (nA nB t : ℕ)
    (ht : t ≤ nA + nB) (PA PB p aA aB : ℚ) (hp : p ≠ 0) :
    HermiteDerivA nA nB t PA PB p aA aB + HermiteDerivB nA nB t PA PB p aA aB
      = 0 := by
  simp only [HermiteDerivA, HermiteDerivB]
  by_cases h : nA = 0 ∧ nB = 0 ∧ t = 0
  · rw [if_pos h, if_pos h]; ring
  · rw [if_neg h, if_neg h]; ring

/-- Witness for C4 at `(nA,nB,t) = (1,0,1)`, `PA = 1/2`, `PB = -3/10`,
`p = 1`, `αA = 2`, `αB = 3`. -/
theorem hermiteDeriv_translational_invariance_witness :
    (1 : ℕ) ≤ 1 + 0 ∧ ((1 : ℚ) ≠ 0) ∧
      HermiteDerivA 1 0 1 (1/2) (-3/10) 1 2 3
        + HermiteDerivB 1 0 1 (1/2) (-3/10) 1 2 3 = 0 :=
  ⟨by decide, by simp,
    hermiteDeriv_translational_invariance 1 0 1 (by decide)
      (1/2) (-3/10) 1 2 3 (by simp)⟩

/-- C5: in the layered Hermite-E evaluator, every entry of the returned array
past the layer's degree is zero: for `nA, nB ≤ MAX_L = 4` and any index `i`
with `nA+nB < i < MAX_T`, `HermiteELayer<nA,nB>::compute(PA,PB,p)[i] = 0` —
so the term `E^{nA-1,nB}_{t+1}` read from the previous layer when `t+1`
exceeds that layer's degree contributes zero rather than an error. -/
theorem hermiteELayer_tail_zero (nA nB i : ℕ) (hA : nA ≤ MAX_L)
    (hB : nB ≤ MAX_L) (h1 : nA + nB < i) (h2 : i < MAX_T) (PA PB p : ℚ) :
    HermiteELayer nA nB PA PB p i = 0 :=
  HermiteELayer_out_of_range nA nB i h1 PA PB p

/-- Witness for C5 at `(nA,nB) = (1,1)`, `i = 3`. -/
theorem hermiteELayer_tail_zero_witness :
    (1 : ℕ) ≤ MAX_L ∧ (1 : ℕ) ≤ MAX_L ∧ (1 + 1 : ℕ) < 3 ∧ (3 : ℕ) < MAX_T ∧
      HermiteELayer 1 1 (1/2) (-3/10) 2 3 = 0 :=
  ⟨by decide, by decide, by decide, by decide,
    hermiteELayer_tail_zero 1 1 3 (by decide) (by decide) (by decide)
      (by decide) (1/2) (-3/10) 2⟩

/-- C6: every array access of the layered evaluators is in bounds for
in-range requests.  Hermite-E (`nA, nB ≤ MAX_L`): the layer writes indices
`0`, `1 ≤ t < nA+nB` and the top index `nA+nB`, all `< MAX_T`, and reads the
previous layer at `0`, `1` and at `t-1, t, t+1 ≤ nA+nB < MAX_T`, all
`< MAX_T`.  Coulomb-R (`L_total ≤ MAX_R_L`, loop iteration `N < L_total`):
every write of the `N` shell targets a triple with sum `≤ L_total - N`, whose
offset is below `tetrahedral(L_total-N) ≤ MAX_R_SIZE`, and every read of the
`N+1` shell targets a triple with sum `≤ L_total - N - 1`, whose offset is
below `tetrahedral(L_total-N-1)`, i.e. only entries filled for that shell. -/
theorem layered_access_in_bounds (nA nB Ltot N : ℕ) (hA : nA ≤ MAX_L)
    (hB : nB ≤ MAX_L) (hLt : Ltot ≤ MAX_R_L) (hN : N < Ltot) :
    (nA + nB < MAX_T ∧ 1 < MAX_T ∧
      (∀ t, 1 ≤ t → t < nA + nB → t + 1 < MAX_T) ∧
      (∀ t, t ≤ nA + nB → t < MAX_T)) ∧
    ((∀ t u v, t + u + v ≤ Ltot - N → rIndexN t u v < tetN (Ltot - N)) ∧
      tetN (Ltot - N) ≤ MAX_R_SIZE ∧
      (∀ t u v, t + u + v ≤ Ltot - N - 1 →
        rIndexN t u v < tetN (Ltot - N - 1))) := by
  have hA' : nA ≤ 4 := hA
  have hB' : nB ≤ 4 := hB
  have hLt' : Ltot ≤ 16 := hLt
  refine ⟨⟨?_, ?_, ?_, ?_⟩, ?_, ?_, ?_⟩
  · show nA + nB < 9; omega
  · show (1 : ℕ) < 9; omega
  · intro t _ht1 ht2; show t + 1 < 9; omega
  · intro t ht; show t < 9; omega
  · intro t u v h; exact rIndexN_lt_tetN t u v _ h
  · have : tetN (Ltot - N) ≤ tetN 16 := tetN_mono (by omega)
    have h16 : tetN 16 = MAX_R_SIZE := rfl
    omega
  · intro t u v h; exact rIndexN_lt_tetN t u v _ h

/-- Witness for C6 at `(nA,nB) = (4,4)`, `L_total = 16`, `N = 0`. -/
theorem layered_access_in_bounds_witness :
    (4 : ℕ) ≤ MAX_L ∧ (4 : ℕ) ≤ MAX_L ∧ (16 : ℕ) ≤ MAX_R_L ∧ (0 : ℕ) < 16 ∧
      (((4 + 4 : ℕ) < MAX_T ∧ 1 < MAX_T ∧
        (∀ t, 1 ≤ t → t < 4 + 4 → t + 1 < MAX_T) ∧
        (∀ t, t ≤ 4 + 4 → t < MAX_T)) ∧
       ((∀ t u v, t + u + v ≤ 16 - 0 → rIndexN t u v < tetN (16 - 0)) ∧
        tetN (16 - 0) ≤ MAX_R_SIZE ∧
        (∀ t u v, t + u + v ≤ 16 - 0 - 1 →
          rIndexN t u v < tetN (16 - 0 - 1)))) :=
  ⟨by decide, by decide, by decide, by decide,
    layered_access_in_bounds 4 4 16 0 (by decide) (by decide) (by decide)
      (by decide)⟩

/-- C7: the base cases hold exactly for all inputs: the Hermite-E layer
`(0,0)` has entry `0` equal to `1` (`E^{0,0}_0 = 1`); the naive
`CoulombR<0,0,0,N>` returns `Boys[N]`; entry `(0,0,0)` (offset
`r_index(0,0,0) = 0`) of each shell built by the layered Coulomb-R evaluator
at auxiliary order `N` equals `Boys[N]`. -/
theorem base_cases_exact :
    (∀ PA PB p : ℚ, HermiteELayer 0 0 PA PB p 0 = 1) ∧
    (∀ (N : ℕ) (PCx PCy PCz : ℚ) (Boys : ℕ → ℚ),
      CoulombR 0 0 0 N PCx PCy PCz Boys = Boys N) ∧
    (∀ (N Lmax : ℕ) (PCx PCy PCz : ℚ) (Boys : ℕ → ℚ),
      CoulombRShell PCx PCy PCz Boys N Lmax 0 0 0 = Boys N) ∧
    rIndexN 0 0 0 = 0 := by
  refine ⟨?_, ?_, ?_, rfl⟩
  · intro PA PB p; simp [HermiteELayer, HermiteELayerB]
  · intro N PCx PCy PCz Boys; rfl
  · intro N Lmax PCx PCy PCz Boys
    cases Lmax with
    | zero => simp [CoulombRShell]
    | succ Lmax => simp [CoulombRShell, CoulombShellStep]

/-- C8: for the concrete geometry `PA = 1/2`, `PB = -3/10`, `p = 2` (so
`1/(2p) = 1/4`), the layered Hermite-E evaluator yields
`E^{1,1}_0 = PA·PB + 1/(2p) = -3/20 + 1/4 = 1/10` exactly. -/
theorem hermiteE_concrete_scenario :
    HermiteELayer 1 1 (1/2) (-3/10) 2 0 = (1/2) * (-3/10) + 1/4 ∧
    HermiteELayer 1 1 (1/2) (-3/10) 2 0 = 1/10 := by
  constructor <;> norm_num [HermiteELayer, HermiteELayerB]

/-- C9: for `PC = (1/2, 3/10, 1/5)` and the degenerate Boys table
`[1,1,1,1,1]`, the layered Coulomb-R evaluator at `L_total = 1` yields
`R_{000}^{(0)} = 1` (at offset `r_index(0,0,0) = 0`) and
`R_{100}^{(0)} = PCx·Boys[1] = 1/2` (at offset `r_index(1,0,0) = 1`). -/
theorem coulombR_concrete_scenario :
    CoulombRLayer 1 (1/2) (3/10) (1/5) boysOnes 0 0 0 = 1 ∧
    CoulombRLayer 1 (1/2) (3/10) (1/5) boysOnes 1 0 0 = 1/2 ∧
    rIndexN 0 0 0 = 0 ∧ rIndexN 1 0 0 = 1 := by
  refine ⟨?_, ?_, rfl, rfl⟩ <;>
    norm_num [CoulombRLayer, CoulombRShell, CoulombShellStep, boysOnes]

/-- C10: the two layered Hermite-E implementations agree: for every `(nA,nB)`
with `nA, nB ≤ 4`, every `t ≤ nA+nB` and all inputs with `p ≠ 0`, the
generated evaluator `HermiteECoeffLayer<nA,nB>::compute` — which handles the
top index `t = nA+nB` by the uniform recurrence reading a zero-padded
`prev[t+1]` — writes `out[t]` equal to
`HermiteELayer<nA,nB>::compute(PA,PB,p)[t]`, which instead special-cases the
top index with no `t+1` term. -/
theorem hermiteECoeffLayer_eq_layer (nA nB t : ℕ) (hA : nA ≤ 4) (hB : nB ≤ 4)
    (ht : t ≤ nA + nB) (PA PB p : ℚ) (hp : p ≠ 0) :
    HermiteECoeffLayer nA nB PA PB p t = HermiteELayer nA nB PA PB p t :=
  (HermiteECoeffLayer_eq nA nB PA PB p t).trans
    (HermiteELayer_eq nA nB PA PB p t).symm

/-- Witness for C10 at `(nA,nB,t) = (1,1,2)` (a top index), `p = 2`. -/
theorem hermiteECoeffLayer_eq_layer_witness :
    (1 : ℕ) ≤ 4 ∧ (1 : ℕ) ≤ 4 ∧ (2 : ℕ) ≤ 1 + 1 ∧ ((2 : ℚ) ≠ 0) ∧
      HermiteECoeffLayer 1 1 (1/2) (-3/10) 2 2
        = HermiteELayer 1 1 (1/2) (-3/10) 2 2 :=
  ⟨by decide, by decide, by decide, by simp,
    hermiteECoeffLayer_eq_layer 1 1 2 (by decide) (by decide) (by decide)
      (1/2) (-3/10) 2 (by simp)⟩
